import Mathlib

/-!
Shallow embedding of `src/main.cpp` from the code2ascii repository: a
line-oriented ANSI syntax highlighter.  Strings are modelled as lists of
characters; each compiled regex together with `regex_search` is modelled as a
total function from the searched string to its leftmost match, if any.
-/

/-- A C++ `std::string` is modelled as a list of characters. -/
abbrev Str := List Char

/-- ANSI escape code for an RGB foreground color (`rgb` in main.cpp). -/
def rgb (r g b : Nat) : String :=
  "\x1b[38;2;" ++ toString r ++ ";" ++ toString g ++ ";" ++ toString b ++ "m"

/-- The universal color-reset marker (`reset` in main.cpp). -/
def rgbReset : String := "\x1b[0m"

/-- Result of a successful `regex_search`: start position and length of the
match, `match.position(0)` and `match.length(0)` in the C++ code. -/
structure RMatch where
  pos : Nat
  len : Nat
deriving DecidableEq

/-- A compiled pattern together with `regex_search` over it: a total function
from the searched string to its leftmost match, when one exists. -/
def Matcher := Str → Option RMatch

/-- A syntax highlighting rule (`HighlightRule` in main.cpp): a pattern and an
ANSI color code. -/
structure HighlightRule where
  pattern : Matcher
  color_code : String

/-! ### Semantics of the regular expressions used by the rule catalog -/

/-- ECMAScript word character `\w`, that is `[A-Za-z0-9_]`. -/
def isWordChar (c : Char) : Bool := c.isAlphanum || c == '_'

/-- Whether the character at position `p` exists and is a word character. -/
def wordCharAt (s : Str) (p : Nat) : Bool :=
  match s[p]? with
  | some c => isWordChar c
  | none => false

/-- ECMAScript word boundary `\b` at position `p`: exactly one of the two
neighbouring positions holds a word character (positions outside the string
count as non-word). -/
def wordBoundary (s : Str) (p : Nat) : Bool :=
  (match p with
   | 0 => false
   | q + 1 => wordCharAt s q) != wordCharAt s p

/-- Leftmost search: try a match at position `p`, then `p + 1`, and so on,
with `k` candidate start positions left to try. -/
def searchAux (matchAt : Str → Nat → Option Nat) (s : Str) : Nat → Nat → Option RMatch
  | _, 0 => none
  | p, k + 1 =>
    match matchAt s p with
    | some len => some ⟨p, len⟩
    | none => searchAux matchAt s (p + 1) k

/-- `regex_search`: the leftmost match of the pattern, trying every start
position `0`, ..., `s.length` in order. -/
def search (matchAt : Str → Nat → Option Nat) : Matcher :=
  fun s => searchAux matchAt s 0 (s.length + 1)

/-- Match of the alternation `(k1|k2|...)` followed by `\b` at position `p`:
ECMAScript tries the alternatives in order and backtracks into the next
alternative when the trailing word boundary fails, so the first alternative
that is present at `p` and followed by a word boundary wins. -/
def altMatchAt (kws : List Str) (s : Str) (p : Nat) : Option Nat :=
  match kws with
  | [] => none
  | k :: rest =>
    if (s.drop p).take k.length = k ∧ wordBoundary s (p + k.length) then some k.length
    else altMatchAt rest s p

/-- Match of a keyword pattern `\b(k1|k2|...)\b` at position `p`
(main.cpp lines 41 and 53). -/
def keywordMatchAt (kws : List Str) (s : Str) (p : Nat) : Option Nat :=
  if wordBoundary s p then altMatchAt kws s p else none

/-- Scan the body of a quoted literal after the opening quote: plain
characters (neither the quote nor a backslash), backslash escape pairs, and
finally the closing quote.  Returns the number of characters consumed,
closing quote included, or `none` when the literal is unterminated. -/
def stringBody (q : Char) : Str → Option Nat
  | [] => none
  | c :: rest =>
    if c = q then some 1
    else if c = '\\' then
      match rest with
      | [] => none
      | _ :: rest2 => (stringBody q rest2).map (· + 2)
    else (stringBody q rest).map (· + 1)

/-- Match of a quoted-literal pattern at position `p` (the patterns
`"[^"\\]*(\\.[^"\\]*)*"` and `"([^"\\]|\\.)*"` and their single-quote
variants, main.cpp lines 43, 44, 55 and 56, which denote the same language):
an opening quote at `p`, then the body up to the first unescaped closing
quote. -/
def stringMatchAt (q : Char) (s : Str) (p : Nat) : Option Nat :=
  if s[p]? = some q then (stringBody q (s.drop (p + 1))).map (· + 1) else none

/-- Match of a comment pattern `marker.*$` at position `p` (main.cpp lines 46
and 58): once the marker occurs at `p`, the greedy `.*` runs to the end of
the searched string, where `$` holds (lines read by `getline` contain no
line terminator). -/
def commentMatchAt (marker : Str) (s : Str) (p : Nat) : Option Nat :=
  if (s.drop p).take marker.length = marker then some (s.length - p) else none

/-- Length of the maximal digit run `\d+` starting at position `p`. -/
def digitRun (s : Str) (p : Nat) : Nat := ((s.drop p).takeWhile Char.isDigit).length

/-- Match of the number pattern `\b\d+(\.\d+)?\b` at position `p`
(main.cpp lines 48 and 60): a word boundary, greedy digits, then the
fractional part when its own digits and the trailing boundary fit, otherwise
the integer part alone when the boundary after it holds.  (Backtracking
inside a digit run never helps: shrinking it leaves a digit as the next
character, where `\b` fails.) -/
def numberMatchAt (s : Str) (p : Nat) : Option Nat :=
  if wordBoundary s p then
    if digitRun s p = 0 then none
    else
      let d1 := digitRun s p
      let withFrac : Option Nat :=
        if s[p + d1]? = some '.' then
          if 0 < digitRun s (p + d1 + 1) ∧
              wordBoundary s (p + d1 + 1 + digitRun s (p + d1 + 1)) then
            some (d1 + 1 + digitRun s (p + d1 + 1))
          else none
        else none
      match withFrac with
      | some len => some len
      | none => if wordBoundary s (p + d1) then some d1 else none
  else none

/-! ### The rule catalog -/

/-- The C++ keyword alternatives of the pattern on main.cpp line 41, in
source order. -/
def cppKeywords : List Str :=
  ["alignas".data, "alignof".data, "and".data, "and_eq".data, "asm".data,
   "auto".data, "bool".data, "break".data, "case".data, "catch".data,
   "char".data, "class".data, "const".data, "constexpr".data,
   "const_cast".data, "continue".data, "decltype".data, "default".data,
   "delete".data, "do".data, "double".data, "dynamic_cast".data, "else".data,
   "enum".data, "explicit".data, "export".data, "extern".data, "false".data,
   "float".data, "for".data, "friend".data, "goto".data, "if".data,
   "inline".data, "int".data, "long".data, "mutable".data, "namespace".data,
   "new".data, "noexcept".data, "nullptr".data, "operator".data,
   "private".data, "protected".data, "public".data, "register".data,
   "reinterpret_cast".data, "return".data, "short".data, "signed".data,
   "sizeof".data, "static".data, "static_assert".data, "static_cast".data,
   "struct".data, "switch".data, "template".data, "this".data,
   "thread_local".data, "throw".data, "true".data, "try".data,
   "typedef".data, "typeid".data, "typename".data, "union".data,
   "unsigned".data, "using".data, "virtual".data, "void".data,
   "volatile".data, "wchar_t".data, "while".data, "xor".data, "xor_eq".data]

/-- The Python keyword alternatives of the pattern on main.cpp line 53, in
source order. -/
def pythonKeywords : List Str :=
  ["False".data, "None".data, "True".data, "and".data, "as".data,
   "assert".data, "async".data, "await".data, "break".data, "class".data,
   "continue".data, "def".data, "del".data, "elif".data, "else".data,
   "except".data, "finally".data, "for".data, "from".data, "global".data,
   "if".data, "import".data, "in".data, "is".data, "lambda".data,
   "nonlocal".data, "not".data, "or".data, "pass".data, "raise".data,
   "return".data, "try".data, "while".data, "with".data, "yield".data]

/-- Rule set for a file extension (`getHighlightRules` in main.cpp,
lines 37-65): keywords, double-quoted strings, single-quoted strings,
line comments, numbers — in that order; unknown extensions get no rules. -/
def getHighlightRules (ext : Str) : List HighlightRule :=
  if ext = "cpp".data ∨ ext = "hpp".data ∨ ext = "c".data ∨ ext = "h".data then
    [⟨search (keywordMatchAt cppKeywords), rgb 0x00 0x88 0xff⟩,
     ⟨search (stringMatchAt '"'), rgb 0xff 0x88 0x00⟩,
     ⟨search (stringMatchAt '\''), rgb 0xff 0x88 0x00⟩,
     ⟨search (commentMatchAt "//".data), rgb 0x88 0x88 0x88⟩,
     ⟨search numberMatchAt, rgb 0xff 0x00 0xff⟩]
  else if ext = "py".data then
    [⟨search (keywordMatchAt pythonKeywords), rgb 0x00 0x88 0xff⟩,
     ⟨search (stringMatchAt '"'), rgb 0xff 0x88 0x00⟩,
     ⟨search (stringMatchAt '\''), rgb 0xff 0x88 0x00⟩,
     ⟨search (commentMatchAt "#".data), rgb 0x88 0x88 0x88⟩,
     ⟨search numberMatchAt, rgb 0xff 0x00 0xff⟩]
  else []

/-- `string::find_last_of` with a single needle character: the index of the
last occurrence of `c` in `s`, if any (main.cpp line 73). -/
def find_last_of (s : Str) (c : Char) : Option Nat :=
  match s with
  | [] => none
  | a :: rest =>
    match find_last_of rest c with
    | some i => some (i + 1)
    | none => if a = c then some 0 else none

/-- `getFileExtension` (main.cpp lines 72-76): the substring after the last
`.` of the filename, or the empty string when there is none. -/
def getFileExtension (filename : Str) : Str :=
  match find_last_of filename '.' with
  | none => []
  | some pos => filename.drop (pos + 1)

/-! ### The line highlighter -/

/-- One emitted chunk of a highlighted line: either plain text, or a matched
span wrapped between a color-activation marker and the reset marker. -/
inductive Span where
  | plain (text : Str)
  | colored (color : String) (text : Str)
deriving DecidableEq

/-- The text carried by a span, markers disregarded. -/
def Span.text : Span → Str
  | .plain t => t
  | .colored _ t => t

/-- One step of the earliest-match fold (main.cpp lines 95-106): run the
rule's `regex_search` on the remaining suffix and replace the best match so
far only when the new match starts strictly earlier, so the rule seen first
is kept on position ties. -/
def considerRule (remaining : Str) (acc : Option (Nat × Nat × String))
    (rule : HighlightRule) : Option (Nat × Nat × String) :=
  match rule.pattern remaining with
  | none => acc
  | some m =>
    match acc with
    | none => some (m.pos, m.len, rule.color_code)
    | some best =>
      if m.pos < best.1 then some (m.pos, m.len, rule.color_code) else some best

/-- Find the earliest match among all rules on the remaining suffix, with its
length and color (main.cpp lines 89-106); `none` plays the role of
`earliest_pos == string::npos`. -/
def findEarliest (rules : List HighlightRule) (remaining : Str) :
    Option (Nat × Nat × String) :=
  rules.foldl (considerRule remaining) none

/-- The scanning loop of `highlightAndPrintLine` (main.cpp lines 88-124),
with fuel bounding the number of iterations; every productive iteration of
the real loop consumes at least one character of the remaining suffix, so
`line.length + 1` fuel is enough (see the termination theorem).  The colored
text the C++ code prints is `earliest_match.str(0)`, which `regex_search`
guarantees is the slice of the remaining suffix at the match position, and
`remaining.substr(a)` is modelled by `List.drop a`. -/
def scanLine : Nat → Str → List HighlightRule → List Span
  | 0, _, _ => []
  | fuel + 1, remaining, rules =>
    if remaining.isEmpty then []
    else
      match findEarliest rules remaining with
      | none => [Span.plain remaining]
      | some (ep, el, color) =>
        (if 0 < ep then [Span.plain (remaining.take ep)] else []) ++
          Span.colored color ((remaining.drop ep).take el) ::
            scanLine fuel (remaining.drop (ep + el)) rules

/-- The spans emitted for one line. -/
def highlightSpans (line : Str) (rules : List HighlightRule) : List Span :=
  scanLine (line.length + 1) line rules

/-- How a span reaches the output stream: plain text is written as is, a
matched span is wrapped between its color code and the reset marker
(main.cpp lines 110, 116 and 120). -/
def renderSpan : Span → Str
  | .plain t => t
  | .colored c t => c.data ++ t ++ rgbReset.data

/-- The full character stream `highlightAndPrintLine` writes to the standard
output: the rendered spans followed by one line terminator
(main.cpp line 126). -/
def highlightAndPrintLine (line : Str) (rules : List HighlightRule) : Str :=
  ((highlightSpans line rules).map renderSpan).flatten ++ ['\n']

/-- The emitted spans with all color markers stripped, concatenated. -/
def stripSpans (spans : List Span) : Str := (spans.map Span.text).flatten

/-! ### The program entry point -/

/-- Outcome of a program run: exit code and the two output streams. -/
structure MainResult where
  exitCode : Nat
  outStream : Str
  errStream : Str
deriving DecidableEq

/-- Model of `main` (main.cpp lines 135-157): `prog` is `argv[0]`, `args`
the remaining arguments (so `argc = args.length + 1` and the `argc < 2` test
is `args = []`), and `readFile` models `ifstream` plus the `getline` loop,
returning the file's lines without their terminators, or `none` when the
file cannot be opened.  Arguments after the first are ignored by the code. -/
def mainModel (prog : String) (args : List String)
    (readFile : String → Option (List Str)) : MainResult :=
  match args with
  | [] => ⟨1, [], ("Usage: " ++ prog ++ " filename\n").data⟩
  | filename :: _ =>
    match readFile filename with
    | none => ⟨1, [], ("Error: Cannot open file " ++ filename ++ "\n").data⟩
    | some fileLines =>
      ⟨0,
       (fileLines.map fun l =>
         highlightAndPrintLine l (getHighlightRules (getFileExtension filename.data))).flatten,
       []⟩

/-! ### Basic lemmas -/

/-- With no rules, the fold finds nothing. -/
theorem findEarliest_nil (remaining : Str) : findEarliest [] remaining = none := rfl

/-- With no rules, a line is emitted as a single plain span (or nothing for
the empty line), followed by the terminator. -/
theorem highlightAndPrintLine_nil_rules (L : Str) :
    highlightAndPrintLine L [] = L ++ ['\n'] := by
  cases L with
  | nil => rfl
  | cons c rest =>
    simp [highlightAndPrintLine, highlightSpans, scanLine, findEarliest_nil,
      stripSpans, renderSpan]

/-- Claim C3: the empty rule set is the identity — for every line `L`
(including the empty line), `highlightAndPrintLine` emits exactly `L`
followed by one line terminator, with no color markers anywhere in the
stream. -/
theorem empty_ruleset_identity (L : Str) :
    highlightAndPrintLine L [] = L ++ ['\n'] :=
  highlightAndPrintLine_nil_rules L

set_option maxRecDepth 10000

/-- Claim C4: C-family scenario — the line `int x = 42; // comment` with the
rule set of a C-family extension is emitted as `int` in the keyword color,
` x = ` plain, `42` in the number color, `; ` plain, and `// comment` in the
comment color running to the end of the line. -/
theorem cfamily_scenario :
    highlightSpans "int x = 42; // comment".data (getHighlightRules "cpp".data) =
      [Span.colored (rgb 0x00 0x88 0xff) "int".data,
       Span.plain " x = ".data,
       Span.colored (rgb 0xff 0x00 0xff) "42".data,
       Span.plain "; ".data,
       Span.colored (rgb 0x88 0x88 0x88) "// comment".data] := by decide

/-- Claim C5: string-swallows-number scenario — the line `s = "value 123"`
with the Python rule set emits the whole `"value 123"` literal as one span in
the string color; the `123` inside it is never emitted as a separately
colored span (the engine does not recurse into matched spans). -/
theorem python_string_scenario :
    highlightSpans "s = \"value 123\"".data (getHighlightRules "py".data) =
      [Span.plain "s = ".data,
       Span.colored (rgb 0xff 0x88 0x00) "\"value 123\"".data] := by decide

/-- Claim C7, counterexample: called with two positional arguments (an
argument count other than exactly one) on a readable Python file of one line
`hi`, the program does not print a usage message and does not exit with
code 1 — it exits with code 0 and emits the highlighted file on standard
output, because the code only tests `argc < 2` and ignores extra
arguments. -/
theorem usage_error_counterexample :
    (mainModel "prog" ["a.py", "b.py"] (fun _ => some [['h', 'i']])).exitCode = 0 ∧
    (mainModel "prog" ["a.py", "b.py"] (fun _ => some [['h', 'i']])).outStream ≠ [] ∧
    (mainModel "prog" ["a.py", "b.py"] (fun _ => some [['h', 'i']])).errStream = [] := by
  decide

/-- Claim C7, amended: whenever the program is invoked with fewer than one
positional argument (`argc < 2`), it prints a usage message to the error
stream, exits with code 1, and emits nothing on the standard output stream;
arguments after the first are ignored. -/
theorem usage_error_amended (prog : String) (rf : String → Option (List Str)) :
    mainModel prog [] rf = ⟨1, [], ("Usage: " ++ prog ++ " filename\n").data⟩ := rfl

/-! ### Lemmas about the earliest-match fold -/

/-- Whatever `considerRule` returns is either the old best match or a match
of the considered rule itself. -/
theorem considerRule_eq_some {remaining : Str} {acc : Option (Nat × Nat × String)}
    {rule : HighlightRule} {t : Nat × Nat × String}
    (h : considerRule remaining acc rule = some t) :
    acc = some t ∨
      (rule.pattern remaining = some ⟨t.1, t.2.1⟩ ∧ rule.color_code = t.2.2) := by
  unfold considerRule at h
  split at h
  next hp => exact Or.inl h
  next m hp =>
    split at h
    next => cases h; exact Or.inr ⟨by rw [hp], rfl⟩
    next best =>
      split at h
      next hlt => cases h; exact Or.inr ⟨by rw [hp], rfl⟩
      next hlt => exact Or.inl h

/-- Every match produced by the fold comes from the initial accumulator or
from one of the rules in the list. -/
theorem foldl_considerRule_mem {remaining : Str} :
    ∀ (rules : List HighlightRule) (acc : Option (Nat × Nat × String))
      (t : Nat × Nat × String),
      rules.foldl (considerRule remaining) acc = some t →
      acc = some t ∨
        ∃ r ∈ rules, r.pattern remaining = some ⟨t.1, t.2.1⟩ ∧ r.color_code = t.2.2 := by
  intro rules
  induction rules with
  | nil => intro acc t h; exact Or.inl h
  | cons r rs ih =>
    intro acc t h
    rw [List.foldl_cons] at h
    rcases ih (considerRule remaining acc r) t h with h' | ⟨r', hr', hpat⟩
    · rcases considerRule_eq_some h' with h'' | h''
      · exact Or.inl h''
      · exact Or.inr ⟨r, List.mem_cons_self r rs, h''⟩
    · exact Or.inr ⟨r', List.mem_cons_of_mem r hr', hpat⟩

/-- A match found by `findEarliest` is the match of one of the rules. -/
theorem findEarliest_mem {rules : List HighlightRule} {remaining : Str}
    {t : Nat × Nat × String} (h : findEarliest rules remaining = some t) :
    ∃ r ∈ rules, r.pattern remaining = some ⟨t.1, t.2.1⟩ ∧ r.color_code = t.2.2 := by
  rcases foldl_considerRule_mem rules none t h with h' | h'
  · cases h'
  · exact h'

/-- When the accumulated best match starts no later than every match of the
remaining rules, the fold keeps it unchanged. -/
theorem foldl_considerRule_keep {remaining : Str} :
    ∀ (rules : List HighlightRule) (t : Nat × Nat × String),
      (∀ r ∈ rules, ∀ m : RMatch, r.pattern remaining = some m → t.1 ≤ m.pos) →
      rules.foldl (considerRule remaining) (some t) = some t := by
  intro rules
  induction rules with
  | nil => intro t _; rfl
  | cons r rs ih =>
    intro t hle
    rw [List.foldl_cons]
    have hstep : considerRule remaining (some t) r = some t := by
      unfold considerRule
      split
      next => rfl
      next m hp =>
        have hle' : t.1 ≤ m.pos := hle r (List.mem_cons_self r rs) m hp
        show (if m.pos < t.1 then some (m.pos, m.len, r.color_code) else some t) = some t
        rw [if_neg (Nat.not_lt.mpr hle')]
    rw [hstep]
    exact ih t (fun r' hr' m hm => hle r' (List.mem_cons_of_mem r hr') m hm)


/-! ### Unfolding lemmas for the scan loop -/

theorem scanLine_zero (remaining : Str) (rules : List HighlightRule) :
    scanLine 0 remaining rules = [] := rfl

theorem scanLine_nil (fuel : Nat) (rules : List HighlightRule) :
    scanLine (fuel + 1) [] rules = [] := rfl

theorem scanLine_cons (fuel : Nat) (c : Char) (cs : Str) (rules : List HighlightRule) :
    scanLine (fuel + 1) (c :: cs) rules =
      match findEarliest rules (c :: cs) with
      | none => [Span.plain (c :: cs)]
      | some (ep, el, color) =>
        (if 0 < ep then [Span.plain ((c :: cs).take ep)] else []) ++
          Span.colored color (((c :: cs).drop ep).take el) ::
            scanLine fuel ((c :: cs).drop (ep + el)) rules := rfl

theorem scanLine_cons_none (fuel : Nat) (c : Char) (cs : Str)
    (rules : List HighlightRule) (h : findEarliest rules (c :: cs) = none) :
    scanLine (fuel + 1) (c :: cs) rules = [Span.plain (c :: cs)] := by
  rw [scanLine_cons, h]

theorem scanLine_cons_some (fuel : Nat) (c : Char) (cs : Str)
    (rules : List HighlightRule) (ep el : Nat) (color : String)
    (h : findEarliest rules (c :: cs) = some (ep, el, color)) :
    scanLine (fuel + 1) (c :: cs) rules =
      (if 0 < ep then [Span.plain ((c :: cs).take ep)] else []) ++
        Span.colored color (((c :: cs).drop ep).take el) ::
          scanLine fuel ((c :: cs).drop (ep + el)) rules := by
  rw [scanLine_cons, h]

/-! ### Content preservation -/

theorem stripSpans_nil : stripSpans [] = [] := rfl

theorem stripSpans_cons (x : Span) (l : List Span) :
    stripSpans (x :: l) = x.text ++ stripSpans l := by
  simp [stripSpans]

theorem stripSpans_append (a b : List Span) :
    stripSpans (a ++ b) = stripSpans a ++ stripSpans b := by
  simp [stripSpans]

/-- Splitting a list at `a` and then at `b` and concatenating the three
pieces gives the list back. -/
theorem take_take_drop {α : Type} (l : List α) (a b : Nat) :
    l.take a ++ ((l.drop a).take b ++ l.drop (a + b)) = l := by
  rw [← List.drop_drop, List.take_append_drop, List.take_append_drop]

/-- With rules whose matches are never empty, the scan loop reproduces the
whole remaining suffix (markers stripped) as long as the fuel exceeds its
length. -/
theorem strip_scanLine (rules : List HighlightRule)
    (hprog : ∀ r ∈ rules, ∀ s (m : RMatch), r.pattern s = some m → 1 ≤ m.pos + m.len) :
    ∀ (fuel : Nat) (remaining : Str), remaining.length < fuel →
      stripSpans (scanLine fuel remaining rules) = remaining := by
  intro fuel
  induction fuel with
  | zero => intro remaining h; exact absurd h (Nat.not_lt_zero _)
  | succ f ih =>
    intro remaining hlen
    cases remaining with
    | nil => rfl
    | cons c cs =>
      cases hfe : findEarliest rules (c :: cs) with
      | none =>
        rw [scanLine_cons_none f c cs rules hfe]
        simp [stripSpans, Span.text]
      | some t =>
        obtain ⟨ep, el, color⟩ := t
        rw [scanLine_cons_some f c cs rules ep el color hfe]
        obtain ⟨r, hr, hpat, -⟩ := findEarliest_mem hfe
        have hp1 : 1 ≤ ep + el := hprog r hr (c :: cs) ⟨ep, el⟩ hpat
        have hrec : stripSpans (scanLine f ((c :: cs).drop (ep + el)) rules) =
            (c :: cs).drop (ep + el) := by
          apply ih
          have hd : ((c :: cs).drop (ep + el)).length =
              (c :: cs).length - (ep + el) := List.length_drop _ _
          have hcs : (c :: cs).length = cs.length + 1 := by simp
          omega
        by_cases hep : 0 < ep
        · rw [if_pos hep]
          simp only [stripSpans_append, stripSpans_cons, stripSpans_nil,
            Span.text, List.append_nil]
          rw [hrec]
          exact take_take_drop (c :: cs) ep el
        · rw [if_neg hep, List.nil_append, stripSpans_cons, hrec]
          have hep0 : ep = 0 := by omega
          subst hep0
          simp [Span.text]


/-- Claim C1: content preservation — for every line `L` and every rule set
whose rules never produce an empty match at the very start of the searched
string (`regex_search` on the catalog's patterns always consumes at least
one character, so `earliest_pos + earliest_len >= 1`), the spans emitted by
`highlightAndPrintLine`, with all color-activation and color-reset markers
stripped, tile `L` left-to-right with no gaps, overlaps or repeats: their
concatenation is exactly `L`, and the full output stream is that rendering
followed by exactly one line terminator. -/
theorem content_preservation (L : Str) (rules : List HighlightRule)
    (hprog : ∀ r ∈ rules, ∀ s (m : RMatch), r.pattern s = some m → 1 ≤ m.pos + m.len) :
    stripSpans (highlightSpans L rules) = L :=
  strip_scanLine rules hprog (L.length + 1) L (Nat.lt_succ_self _)

/-! ### Fuel invariance of the scan loop -/

/-- With rules whose matches are never empty, the scan loop's result does not
depend on the fuel once the fuel exceeds the length of the remaining suffix:
the loop of the C++ code exits within `line.length` productive iterations. -/
theorem scanLine_fuel (rules : List HighlightRule)
    (hprog : ∀ r ∈ rules, ∀ s (m : RMatch), r.pattern s = some m → 1 ≤ m.pos + m.len) :
    ∀ (f1 f2 : Nat) (remaining : Str), remaining.length < f1 → remaining.length < f2 →
      scanLine f1 remaining rules = scanLine f2 remaining rules := by
  intro f1
  induction f1 with
  | zero => intro f2 remaining h _; exact absurd h (Nat.not_lt_zero _)
  | succ a ih =>
    intro f2 remaining h1 h2
    cases f2 with
    | zero => exact absurd h2 (Nat.not_lt_zero _)
    | succ b =>
      cases remaining with
      | nil => rw [scanLine_nil, scanLine_nil]
      | cons c cs =>
        cases hfe : findEarliest rules (c :: cs) with
        | none =>
          rw [scanLine_cons_none a c cs rules hfe, scanLine_cons_none b c cs rules hfe]
        | some t =>
          obtain ⟨ep, el, color⟩ := t
          rw [scanLine_cons_some a c cs rules ep el color hfe,
            scanLine_cons_some b c cs rules ep el color hfe]
          obtain ⟨r, hr, hpat, -⟩ := findEarliest_mem hfe
          have hp1 : 1 ≤ ep + el := hprog r hr (c :: cs) ⟨ep, el⟩ hpat
          have hd : ((c :: cs).drop (ep + el)).length =
              (c :: cs).length - (ep + el) := List.length_drop _ _
          have hcs : (c :: cs).length = cs.length + 1 := by simp
          rw [ih b ((c :: cs).drop (ep + el)) (by omega) (by omega)]

/-! ### Tie-break -/

/-- From an empty accumulator, a rule that matches becomes the best match. -/
theorem considerRule_none {s : Str} {rule : HighlightRule} {m : RMatch}
    (h : rule.pattern s = some m) :
    considerRule s none rule = some (m.pos, m.len, rule.color_code) := by
  unfold considerRule
  rw [h]

/-- A rule whose match starts strictly earlier than the best match so far
replaces it. -/
theorem considerRule_replace {s : Str} {rule : HighlightRule} {m : RMatch}
    {t : Nat × Nat × String} (h : rule.pattern s = some m) (hlt : m.pos < t.1) :
    considerRule s (some t) rule = some (m.pos, m.len, rule.color_code) := by
  unfold considerRule
  rw [h]
  show (if m.pos < t.1 then some (m.pos, m.len, rule.color_code) else some t) = _
  rw [if_pos hlt]

/-- Claim C2: tie-break determinism — in a scan iteration on the remaining
suffix `s`, let `A` be the earliest rule in the rule sequence whose match
starts at the lowest start index `i`: every rule declared before `A` matches
only strictly later (or not at all), and every rule after `A` matches no
earlier than `i` (in particular a rule `B` after `A` may match at the same
index `i`).  Then the scan selects `A`'s match, and the colored span emitted
at `i` uses `A`'s color. -/
theorem tiebreak_first_rule (pre post : List HighlightRule) (A : HighlightRule)
    (s : Str) (i lA : Nat)
    (hA : A.pattern s = some ⟨i, lA⟩)
    (hpre : ∀ r ∈ pre, ∀ m : RMatch, r.pattern s = some m → i < m.pos)
    (hpost : ∀ r ∈ post, ∀ m : RMatch, r.pattern s = some m → i ≤ m.pos) :
    findEarliest (pre ++ A :: post) s = some (i, lA, A.color_code) ∧
    (s ≠ [] → ∃ rest, highlightSpans s (pre ++ A :: post) =
      (if 0 < i then [Span.plain (s.take i)] else []) ++
        Span.colored A.color_code ((s.drop i).take lA) :: rest) := by
  have hstep : pre.foldl (considerRule s) none = none ∨
      ∃ t, pre.foldl (considerRule s) none = some t ∧ i < t.1 := by
    cases hacc : pre.foldl (considerRule s) none with
    | none => exact Or.inl rfl
    | some t =>
      right
      refine ⟨t, rfl, ?_⟩
      obtain ⟨r, hr, hpat, -⟩ :=
        (foldl_considerRule_mem pre none t hacc).resolve_left (by simp)
      exact hpre r hr ⟨t.1, t.2.1⟩ hpat
  have hfe : findEarliest (pre ++ A :: post) s = some (i, lA, A.color_code) := by
    unfold findEarliest
    rw [List.foldl_append, List.foldl_cons]
    have hA' : considerRule s (pre.foldl (considerRule s) none) A =
        some (i, lA, A.color_code) := by
      rcases hstep with h0 | ⟨t, ht, hlt⟩
      · rw [h0]; exact considerRule_none hA
      · rw [ht]; exact considerRule_replace hA hlt
    rw [hA']
    exact foldl_considerRule_keep post (i, lA, A.color_code)
      (fun r hr m hm => hpost r hr m hm)
  refine ⟨hfe, ?_⟩
  intro hs
  cases s with
  | nil => exact absurd rfl hs
  | cons c cs =>
    refine ⟨scanLine (c :: cs).length ((c :: cs).drop (i + lA)) (pre ++ A :: post), ?_⟩
    show scanLine ((c :: cs).length + 1) (c :: cs) (pre ++ A :: post) = _
    exact scanLine_cons_some (c :: cs).length c cs (pre ++ A :: post) i lA
      A.color_code hfe

/-! ### The catalog's patterns never match the empty string and stay in
bounds -/

/-- A successful leftmost search is a successful match of the pattern at the
found position. -/
theorem searchAux_matchAt {matchAt : Str → Nat → Option Nat} {s : Str} :
    ∀ (k p : Nat) (m : RMatch), searchAux matchAt s p k = some m →
      matchAt s m.pos = some m.len := by
  intro k
  induction k with
  | zero => intro p m h; simp [searchAux] at h
  | succ k ih =>
    intro p m h
    simp only [searchAux] at h
    cases hm : matchAt s p with
    | some len =>
      simp only [hm] at h
      cases h
      exact hm
    | none =>
      simp only [hm] at h
      exact ih (p + 1) m h

/-- What `regex_search` finds is a match of the pattern at the found
position. -/
theorem search_matchAt {matchAt : Str → Nat → Option Nat} {s : Str} {m : RMatch}
    (h : search matchAt s = some m) : matchAt s m.pos = some m.len :=
  searchAux_matchAt (s.length + 1) 0 m h

/-- A nonempty literal found by `take` at position `p` lies inside the
string. -/
theorem take_eq_bounds {s : Str} {p : Nat} {k : Str}
    (h : (s.drop p).take k.length = k) (hk : k ≠ []) :
    p < s.length ∧ k.length ≤ s.length - p := by
  have h1 : k.length ≤ (s.drop p).length := by
    have h2 := congrArg List.length h
    rw [List.length_take] at h2
    omega
  rw [List.length_drop] at h1
  have hk1 : 0 < k.length := List.length_pos.mpr hk
  exact ⟨by omega, h1⟩

/-- A successful alternation match is the length of one of the alternatives,
present at the match position. -/
theorem altMatchAt_eq_some {kws : List Str} {s : Str} {p len : Nat}
    (h : altMatchAt kws s p = some len) :
    ∃ k ∈ kws, len = k.length ∧ (s.drop p).take k.length = k := by
  induction kws with
  | nil => simp [altMatchAt] at h
  | cons k rest ih =>
    by_cases hc : (s.drop p).take k.length = k ∧ wordBoundary s (p + k.length)
    · rw [altMatchAt, if_pos hc] at h
      cases h
      exact ⟨k, List.mem_cons_self k rest, rfl, hc.1⟩
    · rw [altMatchAt, if_neg hc] at h
      obtain ⟨k', hk', hlen, htake⟩ := ih h
      exact ⟨k', List.mem_cons_of_mem k hk', hlen, htake⟩

/-- A keyword match (all keywords nonempty) consumes at least one character
and stays inside the string. -/
theorem keywordMatchAt_bounds {kws : List Str} (hkw : ∀ k ∈ kws, k ≠ [])
    {s : Str} {p len : Nat} (h : keywordMatchAt kws s p = some len) :
    1 ≤ len ∧ p + len ≤ s.length := by
  unfold keywordMatchAt at h
  by_cases hb : wordBoundary s p = true
  · rw [if_pos hb] at h
    obtain ⟨k, hk, rfl, htake⟩ := altMatchAt_eq_some h
    obtain ⟨hp, hle⟩ := take_eq_bounds htake (hkw k hk)
    have hk1 : 0 < k.length := List.length_pos.mpr (hkw k hk)
    exact ⟨hk1, by omega⟩
  · rw [if_neg hb] at h
    cases h

/-- The body of a quoted literal consumes at least the closing quote and
stays inside the list it scans. -/
theorem stringBody_bounds {q : Char} (l : Str) :
    ∀ n, stringBody q l = some n → 1 ≤ n ∧ n ≤ l.length := by
  induction l using stringBody.induct q with
  | case1 => intro n h; simp [stringBody] at h
  | case2 rest2 =>
    intro n h
    rw [stringBody.eq_def] at h
    simp only [if_pos rfl] at h
    cases h
    simp
  | case3 hne =>
    intro n h
    rw [stringBody.eq_def] at h
    simp only [if_neg hne, if_pos rfl] at h
    cases h
  | case4 head rest2 hne ih =>
    intro n h
    rw [stringBody.eq_def] at h
    simp only [if_neg hne, if_pos rfl] at h
    obtain ⟨m, hm, hfm⟩ := Option.map_eq_some'.mp h
    obtain ⟨h1, h2⟩ := ih m hm
    subst hfm
    simp only [List.length_cons]
    omega
  | case5 head rest2 hq hbs ih =>
    intro n h
    rw [stringBody.eq_def] at h
    simp only [if_neg hq, if_neg hbs] at h
    obtain ⟨m, hm, hfm⟩ := Option.map_eq_some'.mp h
    obtain ⟨h1, h2⟩ := ih m hm
    subst hfm
    simp only [List.length_cons]
    omega

/-- A quoted-literal match consumes at least one character and stays inside
the string. -/
theorem stringMatchAt_bounds {q : Char} {s : Str} {p len : Nat}
    (h : stringMatchAt q s p = some len) : 1 ≤ len ∧ p + len ≤ s.length := by
  unfold stringMatchAt at h
  by_cases hq : s[p]? = some q
  · rw [if_pos hq] at h
    obtain ⟨hp, -⟩ := List.getElem?_eq_some.mp hq
    obtain ⟨m, hm, hfm⟩ := Option.map_eq_some'.mp h
    obtain ⟨h1, h2⟩ := stringBody_bounds (s.drop (p + 1)) m hm
    rw [List.length_drop] at h2
    subst hfm
    omega
  · rw [if_neg hq] at h
    cases h

/-- A comment match (nonempty marker) consumes at least one character and
runs exactly to the end of the string. -/
theorem commentMatchAt_bounds {marker : Str} (hm : marker ≠ []) {s : Str}
    {p len : Nat} (h : commentMatchAt marker s p = some len) :
    1 ≤ len ∧ p + len ≤ s.length := by
  unfold commentMatchAt at h
  by_cases hc : (s.drop p).take marker.length = marker
  · rw [if_pos hc] at h
    cases h
    obtain ⟨hp, hle⟩ := take_eq_bounds hc hm
    have hm1 : 0 < marker.length := List.length_pos.mpr hm
    exact ⟨by omega, by omega⟩
  · rw [if_neg hc] at h
    cases h

/-- A digit run fits in the rest of the string. -/
theorem digitRun_le (s : Str) (p : Nat) : digitRun s p ≤ s.length - p := by
  unfold digitRun
  calc ((s.drop p).takeWhile Char.isDigit).length
      ≤ (s.drop p).length := (List.takeWhile_prefix Char.isDigit).sublist.length_le
    _ = s.length - p := List.length_drop _ _

/-- A nonempty digit run starts inside the string. -/
theorem digitRun_pos_lt {s : Str} {p : Nat} (h : 0 < digitRun s p) :
    p < s.length := by
  by_contra hp
  push_neg at hp
  unfold digitRun at h
  rw [List.drop_eq_nil_of_le hp] at h
  simp at h

/-- A number match consumes at least one character and stays inside the
string. -/
theorem numberMatchAt_bounds {s : Str} {p len : Nat}
    (h : numberMatchAt s p = some len) : 1 ≤ len ∧ p + len ≤ s.length := by
  unfold numberMatchAt at h
  by_cases hb : wordBoundary s p = true
  · rw [if_pos hb] at h
    by_cases hd0 : digitRun s p = 0
    · rw [if_pos hd0] at h
      cases h
    · rw [if_neg hd0] at h
      simp only at h
      have hd1 : 0 < digitRun s p := Nat.pos_of_ne_zero hd0
      have hlt : p < s.length := digitRun_pos_lt hd1
      have hle1 : digitRun s p ≤ s.length - p := digitRun_le s p
      by_cases hdot : s[p + digitRun s p]? = some '.'
      · rw [if_pos hdot] at h
        obtain ⟨hp2, -⟩ := List.getElem?_eq_some.mp hdot
        have hle2 : digitRun s (p + digitRun s p + 1) ≤
            s.length - (p + digitRun s p + 1) := digitRun_le s _
        by_cases hfr : 0 < digitRun s (p + digitRun s p + 1) ∧
            wordBoundary s (p + digitRun s p + 1 + digitRun s (p + digitRun s p + 1)) = true
        · rw [if_pos hfr] at h
          cases h
          exact ⟨by omega, by omega⟩
        · rw [if_neg hfr] at h
          by_cases hb2 : wordBoundary s (p + digitRun s p) = true
          · rw [if_pos hb2] at h
            cases h
            exact ⟨by omega, by omega⟩
          · rw [if_neg hb2] at h
            cases h
      · rw [if_neg hdot] at h
        by_cases hb2 : wordBoundary s (p + digitRun s p) = true
        · rw [if_pos hb2] at h
          cases h
          exact ⟨by omega, by omega⟩
        · rw [if_neg hb2] at h
          cases h
  · rw [if_neg hb] at h
    cases h

theorem cppKeywords_ne_nil : ∀ k ∈ cppKeywords, k ≠ [] := by decide

theorem pythonKeywords_ne_nil : ∀ k ∈ pythonKeywords, k ≠ [] := by decide

/-- Every rule produced by the catalog yields matches of at least one
character that lie inside the searched string — no catalog pattern matches
the empty string. -/
theorem catalog_bounds (ext : Str) :
    ∀ r ∈ getHighlightRules ext, ∀ s (m : RMatch), r.pattern s = some m →
      1 ≤ m.len ∧ m.pos + m.len ≤ s.length := by
  intro r hr s m hm
  unfold getHighlightRules at hr
  by_cases h1 : ext = "cpp".data ∨ ext = "hpp".data ∨ ext = "c".data ∨ ext = "h".data
  · rw [if_pos h1] at hr
    simp only [List.mem_cons, List.not_mem_nil, or_false] at hr
    rcases hr with rfl | rfl | rfl | rfl | rfl
    · exact keywordMatchAt_bounds cppKeywords_ne_nil (search_matchAt hm)
    · exact stringMatchAt_bounds (search_matchAt hm)
    · exact stringMatchAt_bounds (search_matchAt hm)
    · exact commentMatchAt_bounds (by decide) (search_matchAt hm)
    · exact numberMatchAt_bounds (search_matchAt hm)
  · rw [if_neg h1] at hr
    by_cases h2 : ext = "py".data
    · rw [if_pos h2] at hr
      simp only [List.mem_cons, List.not_mem_nil, or_false] at hr
      rcases hr with rfl | rfl | rfl | rfl | rfl
      · exact keywordMatchAt_bounds pythonKeywords_ne_nil (search_matchAt hm)
      · exact stringMatchAt_bounds (search_matchAt hm)
      · exact stringMatchAt_bounds (search_matchAt hm)
      · exact commentMatchAt_bounds (by decide) (search_matchAt hm)
      · exact numberMatchAt_bounds (search_matchAt hm)
    · rw [if_neg h2] at hr
      cases hr

/-- Every match of a catalog rule consumes at least one character of the
remaining suffix. -/
theorem catalog_progress (ext : Str) :
    ∀ r ∈ getHighlightRules ext, ∀ s (m : RMatch), r.pattern s = some m →
      1 ≤ m.pos + m.len := by
  intro r hr s m hm
  have h := catalog_bounds ext r hr s m hm
  omega

/-- Claim C9: termination of the scan loop — every match of a rule returned
by `getHighlightRules` has positive length and lies inside the searched
string (no catalog rule matches the empty string, so
`earliest_pos + earliest_len >= 1`), hence each productive iteration of the
while loop consumes at least one character of the remaining suffix and the
loop terminates on every line: the fuelled scan is independent of the fuel
once the fuel exceeds the line length. -/
theorem scan_terminates (ext : Str) (line : Str) (f1 f2 : Nat)
    (h1 : line.length < f1) (h2 : line.length < f2) :
    (∀ r ∈ getHighlightRules ext, ∀ s (m : RMatch), r.pattern s = some m →
      1 ≤ m.len ∧ m.pos + m.len ≤ s.length) ∧
    scanLine f1 line (getHighlightRules ext) =
      scanLine f2 line (getHighlightRules ext) :=
  ⟨catalog_bounds ext,
   scanLine_fuel (getHighlightRules ext) (catalog_progress ext) f1 f2 line h1 h2⟩

/-- Witness for the termination theorem at a concrete extension, line and
fuels. -/
theorem scan_terminates_witness :
    (∀ r ∈ getHighlightRules "cpp".data, ∀ s (m : RMatch), r.pattern s = some m →
      1 ≤ m.len ∧ m.pos + m.len ≤ s.length) ∧
    scanLine 2 "a".data (getHighlightRules "cpp".data) =
      scanLine 5 "a".data (getHighlightRules "cpp".data) :=
  scan_terminates "cpp".data "a".data 2 5 (by decide) (by decide)

/-- Witness for content preservation at a concrete line and the Python
catalog rule set. -/
theorem content_preservation_witness :
    stripSpans (highlightSpans "s = 1".data (getHighlightRules "py".data)) =
      "s = 1".data :=
  content_preservation "s = 1".data (getHighlightRules "py".data)
    (catalog_progress "py".data)

/-- A rule whose pattern matches every string at position 0 with length 1. -/
def ruleA : HighlightRule := ⟨fun _ => some ⟨0, 1⟩, rgb 10 20 30⟩

/-- A rule whose pattern matches every string at position 0 with length 2. -/
def ruleB : HighlightRule := ⟨fun _ => some ⟨0, 2⟩, rgb 40 50 60⟩

/-- Witness for the tie-break theorem: two rules matching at the same index
0 of `ab`, the first one declared wins and its color is emitted. -/
theorem tiebreak_first_rule_witness :
    findEarliest ([] ++ ruleA :: [ruleB]) "ab".data =
      some (0, 1, ruleA.color_code) ∧
    ∃ rest, highlightSpans "ab".data ([] ++ ruleA :: [ruleB]) =
      (if 0 < 0 then [Span.plain ("ab".data.take 0)] else []) ++
        Span.colored ruleA.color_code (("ab".data.drop 0).take 1) :: rest :=
  ⟨(tiebreak_first_rule [] [ruleB] ruleA "ab".data 0 1 rfl (by simp)
      (fun r hr m hm => Nat.zero_le m.pos)).1,
   (tiebreak_first_rule [] [ruleB] ruleA "ab".data 0 1 rfl (by simp)
      (fun r hr m hm => Nat.zero_le m.pos)).2 (by decide)⟩

/-! ### Unsupported extensions -/

/-- Claim C6: an unsupported extension is not an error — `getHighlightRules`
returns the empty rule sequence deterministically, every line is then
emitted unmodified with no color markers, and a run of the program on a
readable file with such an extension exits with code 0, its standard output
being exactly the input lines each followed by one terminator. -/
theorem unsupported_extension (ext : Str)
    (h : ext ≠ "cpp".data ∧ ext ≠ "hpp".data ∧ ext ≠ "c".data ∧
      ext ≠ "h".data ∧ ext ≠ "py".data) :
    getHighlightRules ext = [] ∧
    (∀ L, highlightAndPrintLine L (getHighlightRules ext) = L ++ ['\n']) ∧
    (∀ (prog filename : String) (rf : String → Option (List Str)) (lls : List Str),
      getFileExtension filename.data = ext → rf filename = some lls →
      mainModel prog [filename] rf = ⟨0, (lls.map (· ++ ['\n'])).flatten, []⟩) := by
  have hrules : getHighlightRules ext = [] := by
    unfold getHighlightRules
    rw [if_neg, if_neg]
    · exact h.2.2.2.2
    · rintro (h1 | h1 | h1 | h1)
      · exact h.1 h1
      · exact h.2.1 h1
      · exact h.2.2.1 h1
      · exact h.2.2.2.1 h1
  refine ⟨hrules, fun L => by rw [hrules]; exact highlightAndPrintLine_nil_rules L, ?_⟩
  intro prog filename rf lls hext hrf
  show (match rf filename with
    | none => (⟨1, [], ("Error: Cannot open file " ++ filename ++ "\n").data⟩ : MainResult)
    | some fileLines =>
      ⟨0, (fileLines.map fun l =>
        highlightAndPrintLine l
          (getHighlightRules (getFileExtension filename.data))).flatten, []⟩) = _
  rw [hrf]
  show (⟨0, (lls.map fun l =>
      highlightAndPrintLine l
        (getHighlightRules (getFileExtension filename.data))).flatten, []⟩ : MainResult) = _
  rw [hext, hrules]
  have hfun : (fun l => highlightAndPrintLine l ([] : List HighlightRule)) =
      fun l : Str => l ++ ['\n'] := funext highlightAndPrintLine_nil_rules
  rw [hfun]

/-- Witness for the unsupported-extension theorem at extension `txt` and the
file `notes.txt` with one line `hi`. -/
theorem unsupported_extension_witness :
    getHighlightRules "txt".data = [] ∧
    mainModel "prog" ["notes.txt"] (fun _ => some [['h', 'i']]) =
      ⟨0, "hi\n".data, []⟩ := by
  have h := unsupported_extension "txt".data (by decide)
  refine ⟨h.1, ?_⟩
  have h2 := h.2.2 "prog" "notes.txt" (fun _ => some [['h', 'i']]) [['h', 'i']]
    (by decide) rfl
  rw [h2]
  decide

/-! ### Extension resolution -/

/-- `find_last_of` finds nothing when the character does not occur. -/
theorem find_last_of_eq_none {s : Str} {c : Char} (h : c ∉ s) :
    find_last_of s c = none := by
  induction s with
  | nil => rfl
  | cons a rest ih =>
    have h1 : find_last_of rest c = none :=
      ih (fun hm => h (List.mem_cons_of_mem a hm))
    have h2 : ¬a = c := fun he => h (by rw [he]; exact List.mem_cons_self c rest)
    show (match find_last_of rest c with
      | some i => some (i + 1)
      | none => if a = c then some 0 else none) = none
    rw [h1]
    show (if a = c then some 0 else none) = none
    rw [if_neg h2]

/-- When the character occurs, `find_last_of` returns the index of its last
occurrence: the string splits there with no later occurrence. -/
theorem find_last_of_spec {s : Str} {c : Char} (h : c ∈ s) :
    ∃ i pre, find_last_of s c = some i ∧ pre.length = i ∧
      s = pre ++ c :: s.drop (i + 1) ∧ c ∉ s.drop (i + 1) := by
  induction s with
  | nil => cases h
  | cons a rest ih =>
    by_cases hm : c ∈ rest
    · obtain ⟨i, pre, hf, hl, hs, hn⟩ := ih hm
      have hdrop : (a :: rest).drop (i + 1 + 1) = rest.drop (i + 1) := rfl
      refine ⟨i + 1, a :: pre, ?_, by simp [hl], ?_, ?_⟩
      · show (match find_last_of rest c with
          | some i => some (i + 1)
          | none => if a = c then some 0 else none) = some (i + 1)
        rw [hf]
      · rw [hdrop, List.cons_append]
        exact congrArg (a :: ·) hs
      · rw [hdrop]
        exact hn
    · have ha : a = c := by
        rcases List.mem_cons.mp h with h1 | h1
        · exact h1.symm
        · exact absurd h1 hm
      subst ha
      refine ⟨0, [], ?_, rfl, by simp, by simpa using hm⟩
      show (match find_last_of rest a with
        | some i => some (i + 1)
        | none => if a = a then some 0 else none) = some 0
      rw [find_last_of_eq_none hm]
      show (if a = a then some 0 else none) = some 0
      rw [if_pos rfl]

/-- Claim C8: extension resolution — for every filename string,
`getFileExtension` returns exactly the substring after the final `.` (the
filename splits as `pre ++ "." ++ extension` with no `.` in the extension),
the empty string when the filename contains no `.`, and this value is what
the program feeds to `getHighlightRules` (whose lookup is a case-sensitive
exact comparison) to select the rule set. -/
theorem extension_resolution (s : Str) :
    ('.' ∉ s → getFileExtension s = []) ∧
    ('.' ∈ s → ∃ pre, s = pre ++ '.' :: getFileExtension s ∧
      '.' ∉ getFileExtension s) ∧
    (∀ (prog filename : String) (rf : String → Option (List Str)) (lls : List Str),
      s = filename.data → rf filename = some lls →
      mainModel prog [filename] rf =
        ⟨0, (lls.map fun l =>
          highlightAndPrintLine l (getHighlightRules (getFileExtension s))).flatten,
         []⟩) := by
  refine ⟨?_, ?_, ?_⟩
  · intro h
    unfold getFileExtension
    rw [find_last_of_eq_none h]
  · intro h
    obtain ⟨i, pre, hf, hl, hs, hn⟩ := find_last_of_spec h
    have hext : getFileExtension s = s.drop (i + 1) := by
      unfold getFileExtension
      rw [hf]
    exact ⟨pre, by rw [hext]; exact hs, by rw [hext]; exact hn⟩
  · intro prog filename rf lls hsf hrf
    subst hsf
    show (match rf filename with
      | none => (⟨1, [], ("Error: Cannot open file " ++ filename ++ "\n").data⟩ : MainResult)
      | some fileLines =>
        ⟨0, (fileLines.map fun l =>
          highlightAndPrintLine l
            (getHighlightRules (getFileExtension filename.data))).flatten, []⟩) = _
    rw [hrf]

/-- Witness for extension resolution: `apy` has no dot and resolves to the
empty extension, `a.py` splits around its last dot, and a run on `a.py`
uses the rule set selected by the extracted extension. -/
theorem extension_resolution_witness :
    getFileExtension "apy".data = [] ∧
    (∃ pre, "a.py".data = pre ++ '.' :: getFileExtension "a.py".data ∧
      '.' ∉ getFileExtension "a.py".data) ∧
    mainModel "prog" ["a.py"] (fun _ => some []) = ⟨0, [], []⟩ := by
  refine ⟨(extension_resolution "apy".data).1 (by decide),
    (extension_resolution "a.py".data).2.1 (by decide), ?_⟩
  have h := (extension_resolution "a.py".data).2.2 "prog" "a.py"
    (fun _ => some []) [] rfl rfl
  rw [h]
  rfl

/-! ### Dotted directory components -/

/-- When the suffix after the dot contains no further dot, `find_last_of`
finds exactly that dot. -/
theorem find_last_of_append_cons {pre rest : Str} (h : '.' ∉ rest) :
    find_last_of (pre ++ '.' :: rest) '.' = some pre.length := by
  induction pre with
  | nil =>
    show (match find_last_of rest '.' with
      | some i => some (i + 1)
      | none => if '.' = '.' then some 0 else none) = some 0
    rw [find_last_of_eq_none h]
    show (if ('.' : Char) = '.' then some 0 else none) = some 0
    rw [if_pos rfl]
  | cons a pre2 ih =>
    show (match find_last_of (pre2 ++ '.' :: rest) '.' with
      | some i => some (i + 1)
      | none => if a = '.' then some 0 else none) = some (pre2.length + 1)
    rw [ih]

/-- The extension of `pre ++ "." ++ rest` with no dot in `rest` is `rest`. -/
theorem getFileExtension_append {pre rest : Str} (h : '.' ∉ rest) :
    getFileExtension (pre ++ '.' :: rest) = rest := by
  unfold getFileExtension
  rw [find_last_of_append_cons h]
  show (pre ++ '.' :: rest).drop (pre.length + 1) = rest
  have h1 : pre ++ '.' :: rest = (pre ++ ['.']) ++ rest := by simp
  have h2 : pre.length + 1 = (pre ++ ['.']).length := by simp
  rw [h1, h2]
  exact List.drop_left _ _

/-- An extension containing a path separator matches no supported language
identifier. -/
theorem rules_empty_of_slash {e : Str} (h : '/' ∈ e) :
    getHighlightRules e = [] := by
  have h1 : ¬(e = "cpp".data ∨ e = "hpp".data ∨ e = "c".data ∨ e = "h".data) := by
    rintro (rfl | rfl | rfl | rfl) <;> revert h <;> decide
  have h2 : ¬e = "py".data := by
    rintro rfl
    revert h
    decide
  unfold getHighlightRules
  rw [if_neg h1, if_neg h2]

/-- Claim C10: path with a dotted directory — `getFileExtension` operates on
the whole path string, so for a path whose last `.` lies in a directory
component (the characters after it contain a `/`), the returned extension
contains the path separator, matches no supported language identifier, and
every line of the file is rendered without highlighting. -/
theorem dotted_directory (pre mid post : Str)
    (hmid : '.' ∉ mid) (hpost : '.' ∉ post) :
    getFileExtension (pre ++ '.' :: (mid ++ '/' :: post)) = mid ++ '/' :: post ∧
    '/' ∈ getFileExtension (pre ++ '.' :: (mid ++ '/' :: post)) ∧
    getHighlightRules (getFileExtension (pre ++ '.' :: (mid ++ '/' :: post))) = [] ∧
    (∀ L, highlightAndPrintLine L
      (getHighlightRules (getFileExtension (pre ++ '.' :: (mid ++ '/' :: post)))) =
        L ++ ['\n']) := by
  have hnd : '.' ∉ mid ++ '/' :: post := by
    intro hm
    rcases List.mem_append.mp hm with h1 | h1
    · exact hmid h1
    · rcases List.mem_cons.mp h1 with h2 | h2
      · exact absurd h2 (by decide)
      · exact hpost h2
  have hext := @getFileExtension_append pre (mid ++ '/' :: post) hnd
  have hsl : '/' ∈ mid ++ '/' :: post :=
    List.mem_append.mpr (Or.inr (List.mem_cons_self '/' post))
  refine ⟨hext, ?_, ?_, ?_⟩
  · rw [hext]
    exact hsl
  · rw [hext]
    exact rules_empty_of_slash hsl
  · intro L
    rw [hext, rules_empty_of_slash hsl]
    exact highlightAndPrintLine_nil_rules L

/-- Witness for the dotted-directory theorem at the path `dir.v2/main`. -/
theorem dotted_directory_witness :
    getFileExtension ("dir".data ++ '.' :: ("v2".data ++ '/' :: "main".data)) =
      "v2".data ++ '/' :: "main".data ∧
    getHighlightRules
      (getFileExtension ("dir".data ++ '.' :: ("v2".data ++ '/' :: "main".data))) = [] ∧
    highlightAndPrintLine "x".data
      (getHighlightRules
        (getFileExtension ("dir".data ++ '.' :: ("v2".data ++ '/' :: "main".data)))) =
      "x".data ++ ['\n'] := by
  have h := dotted_directory "dir".data "v2".data "main".data (by decide) (by decide)
  exact ⟨h.1, h.2.2.1, h.2.2.2 "x".data⟩
